import Mathlib

/-!
Verification of the state/annotation core of the pretext-book repository
(`packages/jsx/src/state/index.ts`, class `PretextState`).

Modelling conventions:

* XAST nodes (`XastRoot`, `XastElement`, text nodes) are modelled by the
  inductive type `XNode`.  Attributes are association lists.
* JavaScript `Map`/`WeakMap`/object tables are modelled as association
  lists (`List (κ × α)`); `mapGet` returns the value of the most recent
  `set` because setting conses a fresh entry on the front.
* JS object identity (used as `WeakMap`/`WeakSet` keys) is modelled by a
  node's position in the installed tree: the path of child indices from
  the root (`NPath`).  Two structurally equal nodes at different positions
  are distinct objects in JS and distinct paths here.
* The generic tree walker `visit` (from `utils/xast`, whose source is not
  part of `src/`) is modelled from the spec: a pre-order depth-first
  traversal that yields each node together with its ancestor chain,
  nearest ancestor first (`preorder`).
* The tag classification tables `DIVISIONS` / `NUMBERED_BLOCKS` (from
  `stages/helpers/special-tags`, absent from `src/`) are modelled from the
  spec as externally supplied lists of tag names, passed as parameters.
-/


/-- NPath of child indices addressing a position in the document tree. -/
abbrev NPath := List Nat

/-- Model of a XAST node: the document root, an element with a tag name,
attributes and children, or a text node. -/
inductive XNode where
  | root (children : List XNode)
  | element (name : String) (attributes : List (String × String)) (children : List XNode)
  | text (value : String)

namespace XNode

/-- Children of a node (text nodes have none). -/
def children : XNode → List XNode
  | .root cs => cs
  | .element _ _ cs => cs
  | .text _ => []

/-- Tag name of a node; `""` for non-elements (JS `node.name` is only read
on elements). -/
def name : XNode → String
  | .element n _ _ => n
  | _ => ""

/-- Attribute list of a node; `[]` models a missing `attributes` object. -/
def attributes : XNode → List (String × String)
  | .element _ a _ => a
  | _ => []

/-- Test used as the `visit` filter `isElement` (from `utils/tools`). -/
def isElement : XNode → Bool
  | .element _ _ _ => true
  | _ => false

end XNode

/-- Lookup in an association-list map: value of the most recent `set`. -/
def mapGet {κ α : Type} [DecidableEq κ] (m : List (κ × α)) (k : κ) : Option α :=
  (m.find? (fun p => p.1 = k)).map (fun p => p.2)

/-- Attribute access `node.attributes?.[key]`. -/
def attrOf (n : XNode) (key : String) : Option String :=
  mapGet n.attributes key

/-- The value `node.attributes?.["xml:id"] || ""` used by the division map. -/
def xmlIdOf (n : XNode) : String :=
  (attrOf n "xml:id").getD ""

/-- Entry yielded by the tree walker: the visited node, its position, and
its ancestor chain (position and node), nearest ancestor first. -/
structure VisitEntry where
  path : NPath
  node : XNode
  parents : List (NPath × XNode)

mutual

/-- Modelled from the spec: the pre-order depth-first walk of `visit`
(`utils/xast`, not under `src/`): yields every node reachable from the
argument together with its ancestor chain, nearest ancestor first. -/
def preorder : XNode → NPath → List (NPath × XNode) → List VisitEntry
  | .root cs, p, ps => ⟨p, .root cs, ps⟩ :: preorderChildren cs 0 p ((p, .root cs) :: ps)
  | .element n a cs, p, ps =>
      ⟨p, .element n a cs, ps⟩ :: preorderChildren cs 0 p ((p, .element n a cs) :: ps)
  | .text v, p, ps => [⟨p, .text v, ps⟩]

/-- Walk of a child list starting at child index `i` of the node at `p`. -/
def preorderChildren : List XNode → Nat → NPath → List (NPath × XNode) → List VisitEntry
  | [], _, _, _ => []
  | c :: cs, i, p, ps => preorder c (p ++ [i]) ps ++ preorderChildren cs (i + 1) p ps

end

/-- Node stored at a path of the tree, if the path is valid. -/
def nodeAt : XNode → NPath → Option XNode
  | t, [] => some t
  | t, i :: q =>
      match (XNode.children t)[i]? with
      | some c => nodeAt c q
      | none => none

/-- Ancestor chain (position and node, nearest first) of the position `q`
inside the tree `t`, where `t` itself sits at absolute position `pAbs`. -/
def ancChain : XNode → NPath → NPath → List (NPath × XNode)
  | _, _, [] => []
  | t, pAbs, i :: q =>
      match (XNode.children t)[i]? with
      | some c => ancChain c (pAbs ++ [i]) q ++ [(pAbs, t)]
      | none => []

/-- Per-node step of a `visit` pass that records at most one entry keyed
by the visited node. -/
def consEntryStep {α : Type} (f : VisitEntry → Option α)
    (acc : List (NPath × α)) (e : VisitEntry) : List (NPath × α) :=
  match f e with
  | some v => (e.path, v) :: acc
  | none => acc

/-- Division classification `isDivision` from `stages/helpers/special-tags`
(absent from `src/`), modelled from the spec: a fixed, externally supplied
per-tag-name classification, here the list `divTags`. -/
def isDivisionTag (divTags : List String) : XNode → Bool
  | .element n _ _ => decide (n ∈ divTags)
  | _ => false

/-- Test `NUMBERED_BLOCKS.has(node.name)` with the classification table
`NUMBERED_BLOCKS` (absent from `src/`) modelled as the list `blockTags`. -/
def isNumberedBlockTag (blockTags : List String) (n : XNode) : Bool :=
  decide (XNode.name n ∈ blockTags)

/-- Entries of the walk that pass the `{ test: isElement }` filter of
`visit`, in visit order. -/
def elementsOf (root : XNode) : List VisitEntry :=
  (preorder root [] []).filter (fun e => XNode.isElement e.node)

/-- Model of `PretextState._generateBlockToNumberMap`: a single pass over
the elements; a division resets the running counter to 0; a numbered block
records the counter against the node and increments it.  `init` is the
content of the `_xastBlockToNumber` weak map before the pass (the source
only ever adds entries to it). -/
def generateBlockToNumberMap (divTags blockTags : List String) (root : XNode)
    (init : List (NPath × Nat)) : List (NPath × Nat) :=
  ((elementsOf root).foldl
    (fun acc e =>
      let number := if isDivisionTag divTags e.node then 0 else acc.2
      if isNumberedBlockTag blockTags e.node then ((e.path, number) :: acc.1, number + 1)
      else (acc.1, number))
    (init, 0)).1

/-- Elements visited since the most recent division, the division itself
included, given the list of previously visited elements (earliest first). -/
def afterLastDivAux (divTags : List String) : List XNode → List XNode
  | [] => []
  | n :: rest => if isDivisionTag divTags n then [n] else n :: afterLastDivAux divTags rest

/-- Suffix of `pre` starting at the most recent division (inclusive), or
all of `pre` when it holds no division. -/
def sinceLastDivision (divTags : List String) (pre : List XNode) : List XNode :=
  (afterLastDivAux divTags pre.reverse).reverse

/-- Specified number of a numbered block: the count, 0-based, of numbered
blocks visited in pre-order since the most recent division node (a
division is numbered 0 outright, the counter having just reset). -/
def specBlockNumber (divTags blockTags : List String) (pre : List XNode) (n : XNode) : Nat :=
  if isDivisionTag divTags n then 0
  else ((sinceLastDivision divTags pre).filter (isNumberedBlockTag blockTags)).length

/-- Specified block-number table: each numbered-block element is keyed to
its `specBlockNumber` relative to the elements visited before it. -/
def specBlockEntries (divTags blockTags : List String) :
    List VisitEntry → List XNode → List (NPath × Nat)
  | [], _ => []
  | e :: rest, pre =>
      (if isNumberedBlockTag blockTags e.node then
        [(e.path, specBlockNumber divTags blockTags pre e.node)]
      else []) ++ specBlockEntries divTags blockTags rest (pre ++ [e.node])

/-- Occurrence table `occurrences` of the slugger: a JS object mapping
slug strings to counts. -/
abbrev OccMap := List (String × Nat)

/-- Keys of an occurrence table (JS own-property names). -/
def occKeys (occ : OccMap) : List String := occ.map (fun p => p.1)

/-- Decimal digit as a character. -/
def digitCharOf (d : Nat) : Char := Char.ofNat (48 + d)

/-- Decimal representation of a natural number, as produced by JS string
interpolation of a number. -/
def natRepr (n : Nat) : String :=
  if n = 0 then "0" else String.mk ((Nat.digits 10 n).reverse.map digitCharOf)

/-- Update `occurrences[base]++` of the slugger loop. -/
def occBump (occ : OccMap) (base : String) : OccMap :=
  occ.map (fun p => if p.1 = base then (p.1, p.2 + 1) else p)

/-- Own-property test `own.call(occurrences, k)`. -/
def hasOwn (occ : OccMap) (k : String) : Bool := decide (k ∈ occKeys occ)

/-- Modelled from the spec: the collision loop of `slug` in the external
`github-slugger` package (not under `src/`): while the candidate is
already a key of the occurrence table, the base's count is bumped and the
candidate becomes the base followed by a dash and the new count — the
spec's "disambiguated by appending an incrementing numeric suffix on
collision".  The loop is run on fuel; `sluggerSlug` supplies fuel
`occ.length + 1`, which `slugLoop_result_fresh` proves sufficient for the
loop to reach its exit condition. -/
def slugLoop (base : String) : Nat → OccMap → String → OccMap × String
  | 0, occ, result => (occ, result)
  | fuel + 1, occ, result =>
      if hasOwn occ result then
        let occ' := occBump occ base
        slugLoop base fuel occ' (base ++ "-" ++ natRepr ((mapGet occ' base).getD 0))
      else (occ, result)

/-- Modelled from the spec: `slug(value, true)` of `github-slugger`
(`maintainCase` is always `true` in `src/`, and the string-normalisation
step, which only rewrites characters, is modelled as the identity): run
the collision loop from the base string, then record the chosen result
with count 0. -/
def sluggerSlug (occ : OccMap) (value : String) : OccMap × String :=
  let r := slugLoop value (occ.length + 1) occ value
  ((r.2, 0) :: r.1, r.2)

structure TocItem where
  id : String
  division : String
  title : List XNode

structure TocEntry where
  numbering : List Nat
  level : Nat
  item : TocItem

/-- Model of the exported `XRefTargetInfo` type of `state/index.ts`. -/
structure XRefTargetInfo where
  node : XNode
  tag : String
  id : String
  title : List XNode
  codenumber : String

/-- Model of the `PretextState` class state: the slugger's occurrence
table, the pending-declaration cache (a JS `Set`, kept in insertion
order), the installed root and the index maps.  The `docinfo`,
`frontmatter`, `schema`, `toc` and `processContent` fields play no role in
any claim and are omitted. -/
structure PretextState where
  occurrences : OccMap
  declaredIdCache : List String
  root : XNode
  parentMap : List (NPath × XNode)
  xastNodeToTocDivisionId : List (NPath × String)
  xastDivisions : List NPath
  xastBlockToNumber : List (NPath × Nat)
  tocInfoMap : List (String × TocEntry)
  xrefableMap : List (String × XRefTargetInfo)

/-- Model of the `PretextState` constructor: every index starts empty. -/
def initialState : PretextState :=
  { occurrences := [], declaredIdCache := [], root := .root [],
    parentMap := [], xastNodeToTocDivisionId := [], xastDivisions := [],
    xastBlockToNumber := [], tocInfoMap := [], xrefableMap := [] }

/-- Model of `PretextState.declareId`: returns `true` when the id is in
the pending cache or its occurrence count is `> 0`; otherwise adds it to
the cache and returns `false`. -/
def declareId (st : PretextState) (id : String) : PretextState × Bool :=
  if id ∈ st.declaredIdCache ∨ (mapGet st.occurrences id).getD 0 > 0 then (st, true)
  else ({ st with declaredIdCache := st.declaredIdCache ++ [id] }, false)

/-- Drain of the pending cache: each pending id is slugged (reserving it
in the occurrence table), in insertion order. -/
def drainCache (occ : OccMap) (cache : List String) : OccMap :=
  cache.foldl (fun o id => (sluggerSlug o id).1) occ

/-- Model of `PretextState.getUniqueId`: drain the pending cache if it is
non-empty, then slug the preferred name (JS `||` falls back on the default
for a missing or empty name). -/
def getUniqueId (st : PretextState) (preferredName : Option String) : PretextState × String :=
  let st1 :=
    if st.declaredIdCache.isEmpty then st
    else { st with occurrences := drainCache st.occurrences st.declaredIdCache,
                   declaredIdCache := [] }
  let base := match preferredName with
    | some p => if p = "" then "auto-generated-id" else p
    | none => "auto-generated-id"
  let r := sluggerSlug st1.occurrences base
  ({ st1 with occurrences := r.1 }, r.2)

/-- Calls into the identifier allocator. -/
inductive AllocOp where
  | declare (id : String)
  | getUnique (preferredName : Option String)

/-- Observable outcome of one allocator call: the id passed to `declareId`
or the id returned by `getUniqueId`. -/
inductive AllocEvent where
  | declared (id : String)
  | generated (id : String)

def eventId : AllocEvent → String
  | .declared id => id
  | .generated id => id

/-- Run a sequence of allocator calls, collecting the event trace in call
order. -/
def runOps (st : PretextState) : List AllocOp → PretextState × List AllocEvent
  | [] => (st, [])
  | op :: ops =>
      match op with
      | .declare id =>
          let r := declareId st id
          let rest := runOps r.1 ops
          (rest.1, .declared id :: rest.2)
      | .getUnique p =>
          let r := getUniqueId st p
          let rest := runOps r.1 ops
          (rest.1, .generated r.2 :: rest.2)

/-- Freshness of a trace (in chronological order): every generated id
differs from the id of every event that precedes it. -/
def genFresh : List AllocEvent → Prop
  | [] => True
  | e :: rest => (∀ g, AllocEvent.generated g ∈ rest → g ≠ eventId e) ∧ genFresh rest

/-- Identifiers the allocator state already accounts for: keys of the
occurrence table together with the pending cache. -/
def covered (st : PretextState) (id : String) : Prop :=
  id ∈ occKeys st.occurrences ∨ id ∈ st.declaredIdCache

/-- Model of `PretextState._generateParentMap`: one walk recording, for
every node with a non-empty ancestor chain, its nearest ancestor.  `init`
is the prior content of the `_parentMap` weak map (the source never
clears it). -/
def generateParentMap (root : XNode) (init : List (NPath × XNode)) : List (NPath × XNode) :=
  (preorder root [] []).foldl
    (consEntryStep (fun e => e.parents.head?.map (fun qm => qm.2))) init

/-- Value recorded by `_generateNodeToDivisionIdMap` for a visited node:
its own `xml:id` when the node is a marked division, otherwise the
`xml:id` of the first marked division in its ancestor chain (nearest
first), otherwise nothing. -/
def divIdOf (divisions : List NPath) (e : VisitEntry) : Option String :=
  if XNode.isElement e.node && decide (e.path ∈ divisions) then some (xmlIdOf e.node)
  else
    (e.parents.find? (fun qm => XNode.isElement qm.2 && decide (qm.1 ∈ divisions))).map
      (fun qm => xmlIdOf qm.2)

/-- Model of `PretextState._generateNodeToDivisionIdMap`: one walk
recording `divIdOf` per node; the `_xastDivisions` weak set is modelled by
the position list `divisions`.  `init` is the prior content of the weak
map. -/
def generateNodeToDivisionIdMap (root : XNode) (divisions : List NPath)
    (init : List (NPath × String)) : List (NPath × String) :=
  (preorder root [] []).foldl (consEntryStep (divIdOf divisions)) init

/-- Modelled from the spec: the positions the ToC pass (`helpers/toc.ts`,
absent from `src/`) marks in the `_xastDivisions` weak set: the
division-classified elements of the tree. -/
def divisionPositions (divTags : List String) (root : XNode) : List NPath :=
  (preorder root [] []).filterMap
    (fun e => if isDivisionTag divTags e.node then some e.path else none)

/-- Modelled from the spec: a simplified ToC-info map builder standing in
for `_generateTocItemInfoMap` (`helpers/toc.ts`, absent from `src/`):
every division element with an explicit identifier receives an entry
whose numbering path extends its parent division's numbering by its
1-based index among its division siblings.  No claim is settled against
this map's content; it only completes the `setRoot` pipeline. -/
def tocEntriesOf (divTags : List String) : List XNode → List Nat → Nat → List (String × TocEntry)
  | [], _, _ => []
  | c :: cs, pref, k =>
      if isDivisionTag divTags c then
        (if xmlIdOf c = "" then []
         else [(xmlIdOf c,
            { numbering := pref ++ [k + 1], level := pref.length,
              item := { id := xmlIdOf c, division := XNode.name c, title := [] } })])
        ++ tocEntriesOf divTags (XNode.children c) (pref ++ [k + 1]) 0
        ++ tocEntriesOf divTags cs pref (k + 1)
      else
        tocEntriesOf divTags (XNode.children c) pref k
        ++ tocEntriesOf divTags cs pref k
termination_by l => sizeOf l
decreasing_by
  all_goals simp only [List.cons.sizeOf_spec]
  · cases c <;> simp [XNode.children] <;> omega
  · omega
  · cases c <;> simp [XNode.children] <;> omega
  · omega

/-- Modelled from the spec: a simplified cross-reference index builder
standing in for `_generateRefalbeInfoMap` (`helpers/refs.ts`, absent from
`src/`): every element with an explicit identifier becomes a target.  No
claim is settled against this map's content; it only completes the
`setRoot` pipeline. -/
def xrefEntriesOf (root : XNode) : List (String × XRefTargetInfo) :=
  (preorder root [] []).filterMap (fun e =>
    if XNode.isElement e.node && decide (xmlIdOf e.node ≠ "") then
      some (xmlIdOf e.node,
        { node := e.node, tag := XNode.name e.node, id := xmlIdOf e.node,
          title := [], codenumber := "" })
    else none)

/-- Model of `PretextState.setRoot`: installs the root and reruns the
passes.  `_generateParentMap` and the division/block passes are from
`src/`; `_generateToc` and `_generateRefalbeInfoMap` (absent from `src/`)
are modelled from the spec: the ToC pass marks the divisions, rebuilds
the ToC info map and runs the block-number and division-id passes, then
the ref pass rebuilds the xrefable map.  The weak maps and the weak set
have no clear operation, so the passes only add entries to them. -/
def setRoot (divTags blockTags : List String) (st : PretextState) (root : XNode) :
    PretextState :=
  let divisions := divisionPositions divTags root ++ st.xastDivisions
  { st with
    root := root,
    parentMap := generateParentMap root st.parentMap,
    xastDivisions := divisions,
    tocInfoMap := tocEntriesOf divTags (XNode.children root) [] 0,
    xastBlockToNumber := generateBlockToNumberMap divTags blockTags root st.xastBlockToNumber,
    xastNodeToTocDivisionId :=
      generateNodeToDivisionIdMap root divisions st.xastNodeToTocDivisionId,
    xrefableMap := xrefEntriesOf root }

/-- JS `a || b` on an optional string: `b` when `a` is absent or empty. -/
def jsOr (s : Option String) (dflt : String) : String :=
  match s with
  | some v => if v = "" then dflt else v
  | none => dflt

/-- Model of `PretextState.getTocItemInfo`: look the node up in the
division map; a missing entry or an empty (JS-falsy) division id yields
no result, otherwise the division id is looked up in the ToC info map. -/
def getTocItemInfo (st : PretextState) (p : NPath) : Option TocEntry :=
  match mapGet st.xastNodeToTocDivisionId p with
  | some tocParentId => if tocParentId = "" then none else mapGet st.tocInfoMap tocParentId
  | none => none

/-- Model of `PretextState.getRefTargetInfo`: look up the node's `ref`
attribute (defaulting to `""`) in the xrefable map. -/
def getRefTargetInfo (st : PretextState) (n : XNode) : Option XRefTargetInfo :=
  mapGet st.xrefableMap ((attrOf n "ref").getD "")

/-- Model of `PretextState.getDivisionDisplayName`; the display-name
table `STRING_ID_TO_DISPLAY_NAME` (from `state/i18n`, absent from `src/`)
is a parameter. -/
def getDivisionDisplayName (displayNames : List (String × String)) (st : PretextState)
    (p : NPath) : Option String :=
  let tocParentId := (mapGet st.xastNodeToTocDivisionId p).getD ""
  match mapGet st.tocInfoMap tocParentId with
  | some tocInfo => mapGet displayNames tocInfo.item.division
  | none => none

/-- Result record of `getBlockInfo`. -/
structure BlockInfo where
  displayName : String
  number : Option Nat
  divisionInfo : TocEntry

/-- Model of `PretextState.getBlockInfo`; takes the node (the JS
argument) together with its position (the JS object's identity). -/
def getBlockInfo (displayNames : List (String × String)) (st : PretextState)
    (p : NPath) (n : XNode) : Option BlockInfo :=
  let number := mapGet st.xastBlockToNumber p
  match getTocItemInfo st p with
  | none => none
  | some divisionInfo =>
      some { displayName := jsOr (mapGet displayNames (XNode.name n)) (XNode.name n),
             number := number, divisionInfo := divisionInfo }

/-- Position, together with the node there, of the nearest enclosing
marked division: the node itself when it is a marked division, else the
first marked division in its ancestor chain, nearest first. -/
def nearestDivision (root : XNode) (divisions : List NPath) (p : NPath) :
    Option (NPath × XNode) :=
  match nodeAt root p with
  | none => none
  | some n =>
      if XNode.isElement n && decide (p ∈ divisions) then some (p, n)
      else (ancChain root [] p).find? (fun qm => XNode.isElement qm.2 && decide (qm.1 ∈ divisions))

/-- Scenario tree of C3: `root > chapter#c1 > (definition, theorem,
section#s1 > definition)`. -/
def scenarioTree : XNode :=
  XNode.root [XNode.element "chapter" [("xml:id", "c1")]
    [XNode.element "definition" [] [],
     XNode.element "theorem" [] [],
     XNode.element "section" [("xml:id", "s1")] [XNode.element "definition" [] []]]]

@[simp] theorem nodeAt_nil (t : XNode) : nodeAt t [] = some t := rfl

@[simp] theorem ancChain_nil (t : XNode) (pAbs : NPath) : ancChain t pAbs [] = [] := rfl

@[simp] theorem mapGet_nil {κ α : Type} [DecidableEq κ] (k : κ) :
    mapGet ([] : List (κ × α)) k = none := rfl

theorem mapGet_cons {κ α : Type} [DecidableEq κ] (k k₀ : κ) (v : α) (m : List (κ × α)) :
    mapGet ((k₀, v) :: m) k = if k₀ = k then some v else mapGet m k := by
  by_cases h : k₀ = k <;> simp [mapGet, List.find?, h]

theorem mapGet_append {κ α : Type} [DecidableEq κ] (m₁ m₂ : List (κ × α)) (k : κ) :
    mapGet (m₁ ++ m₂) k = (mapGet m₁ k).orElse (fun _ => mapGet m₂ k) := by
  induction m₁ with
  | nil => simp [mapGet]
  | cons p m ih =>
      by_cases h : p.1 = k
      · simp [mapGet, List.find?_cons, h]
      · simpa [mapGet_cons, h, mapGet] using ih

theorem mapGet_eq_none_of_not_mem_keys {κ α : Type} [DecidableEq κ]
    (m : List (κ × α)) (k : κ) (h : k ∉ m.map (fun p => p.1)) : mapGet m k = none := by
  induction m with
  | nil => rfl
  | cons p m ih =>
      simp only [List.map_cons, List.mem_cons] at h
      push_neg at h
      rw [show (p : κ × α) = (p.1, p.2) from rfl, mapGet_cons, if_neg (fun hk => h.1 hk.symm)]
      exact ih h.2

@[simp] theorem nodeAt_cons (t : XNode) (i : Nat) (q : NPath) :
    nodeAt t (i :: q) =
      match (XNode.children t)[i]? with
      | some c => nodeAt c q
      | none => none := by
  cases t <;> rfl

@[simp] theorem ancChain_cons (t : XNode) (pAbs : NPath) (i : Nat) (q : NPath) :
    ancChain t pAbs (i :: q) =
      match (XNode.children t)[i]? with
      | some c => ancChain c (pAbs ++ [i]) q ++ [(pAbs, t)]
      | none => [] := by
  cases t <;> rfl

theorem preorder_eq (t : XNode) (p : NPath) (ps : List (NPath × XNode)) :
    preorder t p ps =
      ⟨p, t, ps⟩ :: preorderChildren (XNode.children t) 0 p ((p, t) :: ps) := by
  cases t <;> rfl

theorem mem_preorderChildren {e : VisitEntry} :
    ∀ {cs : List XNode} {i : Nat} {p : NPath} {ps : List (NPath × XNode)},
      e ∈ preorderChildren cs i p ps ↔
        ∃ j c, cs[j]? = some c ∧ e ∈ preorder c (p ++ [i + j]) ps := by
  intro cs
  induction cs with
  | nil => simp [preorderChildren]
  | cons c cs ih =>
      intro i p ps
      simp only [preorderChildren, List.mem_append, ih]
      constructor
      · rintro (h | ⟨j, d, hj, hd⟩)
        · exact ⟨0, c, by simp, by simpa using h⟩
        · exact ⟨j + 1, d, by simpa using hj, by
            have : i + 1 + j = i + (j + 1) := by omega
            rwa [this] at hd⟩
      · rintro ⟨j, d, hj, hd⟩
        cases j with
        | zero =>
            left
            simp only [List.getElem?_cons_zero, Option.some.injEq] at hj
            subst hj
            simpa using hd
        | succ j =>
            right
            refine ⟨j, d, by simpa using hj, ?_⟩
            have : i + (j + 1) = i + 1 + j := by omega
            rwa [this] at hd

theorem mem_of_getElem_some {α : Type} {l : List α} {j : Nat} {c : α}
    (h : l[j]? = some c) : c ∈ l := by
  rcases List.getElem?_eq_some.mp h with ⟨hj, hc⟩
  exact hc ▸ List.getElem_mem hj

theorem sizeOf_lt_of_mem_children {c t : XNode} (h : c ∈ XNode.children t) :
    sizeOf c < sizeOf t := by
  have h' := List.sizeOf_lt_of_mem h
  cases t with
  | root cs => simp only [XNode.children] at h'; simp; omega
  | element n a cs => simp only [XNode.children] at h'; simp; omega
  | text v => simp [XNode.children] at h

/-- Soundness of the walk: every visited entry corresponds to a valid tree
position, carries the node stored there, and carries the full ancestor
chain (nearest first) on top of the chain supplied to the walk. -/
theorem preorder_sound (t : XNode) (p₀ : NPath) (ps₀ : List (NPath × XNode)) :
    ∀ e ∈ preorder t p₀ ps₀, ∃ q, e.path = p₀ ++ q ∧ nodeAt t q = some e.node ∧
      e.parents = ancChain t p₀ q ++ ps₀ := by
  intro e he
  rw [preorder_eq] at he
  rcases List.mem_cons.mp he with rfl | he
  · exact ⟨[], by simp⟩
  · rcases mem_preorderChildren.mp he with ⟨j, c, hj, hc⟩
    have hmem : c ∈ XNode.children t := by
      exact mem_of_getElem_some hj
    have := preorder_sound c (p₀ ++ [0 + j]) ((p₀, t) :: ps₀) e hc
    rcases this with ⟨q, hpath, hnode, hpar⟩
    refine ⟨j :: q, ?_, ?_, ?_⟩
    · simpa using hpath
    · simp only [nodeAt_cons, hj]
      exact hnode
    · simp only [ancChain_cons, hj]
      simpa using hpar
termination_by sizeOf t
decreasing_by exact sizeOf_lt_of_mem_children hmem

/-- Completeness of the walk: every valid tree position is visited, with
its node and ancestor chain. -/
theorem preorder_complete (t : XNode) (p₀ : NPath) (ps₀ : List (NPath × XNode)) :
    ∀ q n, nodeAt t q = some n →
      (⟨p₀ ++ q, n, ancChain t p₀ q ++ ps₀⟩ : VisitEntry) ∈ preorder t p₀ ps₀ := by
  intro q n hq
  rw [preorder_eq]
  cases q with
  | nil =>
      simp only [nodeAt_nil, Option.some.injEq] at hq
      subst hq
      simp
  | cons i q =>
      simp only [nodeAt_cons] at hq
      rcases hcs : (XNode.children t)[i]? with _ | c
      · rw [hcs] at hq; exact absurd hq (by simp)
      · rw [hcs] at hq
        have hmem : c ∈ XNode.children t := mem_of_getElem_some hcs
        have := preorder_complete c (p₀ ++ [i]) ((p₀, t) :: ps₀) q n hq
        refine List.mem_cons_of_mem _ (mem_preorderChildren.mpr ⟨i, c, by simpa using hcs, ?_⟩)
        simp only [ancChain_cons, hcs, Nat.zero_add]
        simpa using this
termination_by sizeOf t
decreasing_by exact sizeOf_lt_of_mem_children hmem

theorem preorderChildren_path_shape {cs : List XNode} {i : Nat} {p : NPath}
    {ps : List (NPath × XNode)} :
    ∀ e ∈ preorderChildren cs i p ps, ∃ j q, i ≤ j ∧ e.path = p ++ j :: q := by
  intro e he
  rcases mem_preorderChildren.mp he with ⟨j, c, _, hc⟩
  rcases preorder_sound c (p ++ [i + j]) ps e hc with ⟨q, hpath, _, _⟩
  exact ⟨i + j, q, by omega, by simpa using hpath⟩

theorem preorderChildren_path_nodup (cs : List XNode) (i : Nat) (p : NPath)
    (ps : List (NPath × XNode))
    (hrec : ∀ c ∈ cs, ∀ p' ps', ((preorder c p' ps').map VisitEntry.path).Nodup) :
    ((preorderChildren cs i p ps).map VisitEntry.path).Nodup := by
  induction cs generalizing i with
  | nil => simp [preorderChildren]
  | cons c cs ih =>
      simp only [preorderChildren, List.map_append]
      refine List.Nodup.append (hrec c (by simp) _ _)
        (ih (i + 1) (fun d hd => hrec d (List.mem_cons_of_mem _ hd))) ?_
      intro x hx hx'
      rcases List.mem_map.mp hx with ⟨e, he, hpe⟩
      rcases List.mem_map.mp hx' with ⟨f, hf, hpf⟩
      rcases preorder_sound c (p ++ [i]) ps e he with ⟨q, hq, _, _⟩
      rcases preorderChildren_path_shape f hf with ⟨j, q', hij, hq'⟩
      have : p ++ i :: q = p ++ j :: q' := by
        rw [List.append_assoc, List.singleton_append] at hq
        rw [← hq, hpe, ← hpf, hq']
      have := List.append_cancel_left this
      simp only [List.cons.injEq] at this
      omega

theorem preorder_path_nodup (t : XNode) :
    ∀ (p₀ : NPath) (ps₀ : List (NPath × XNode)),
      ((preorder t p₀ ps₀).map VisitEntry.path).Nodup := by
  intro p₀ ps₀
  rw [preorder_eq]
  simp only [List.map_cons]
  refine List.nodup_cons.mpr ⟨?_, preorderChildren_path_nodup _ 0 _ _
    (fun c hc p' ps' => preorder_path_nodup c p' ps')⟩
  intro hmem
  rcases List.mem_map.mp hmem with ⟨e, he, hpath⟩
  rcases preorderChildren_path_shape e he with ⟨j, q, _, hq⟩
  rw [hq] at hpath
  exact absurd hpath.symm (by simp)
termination_by sizeOf t
decreasing_by exact sizeOf_lt_of_mem_children hc

theorem foldl_consEntryStep {α : Type} (f : VisitEntry → Option α) :
    ∀ (L : List VisitEntry) (init : List (NPath × α)),
      L.foldl (consEntryStep f) init
        = (L.filterMap (fun e => (f e).map (fun v => (e.path, v)))).reverse ++ init := by
  intro L
  induction L with
  | nil => simp
  | cons e L ih =>
      intro init
      cases hf : f e <;> simp [consEntryStep, List.filterMap_cons, hf, ih]

theorem entries_keys_sub {α : Type} (f : VisitEntry → Option α) (L : List VisitEntry)
    (k : NPath) :
    k ∈ (L.filterMap (fun e => (f e).map (fun v => (e.path, v)))).map (fun p => p.1) →
      k ∈ L.map VisitEntry.path := by
  induction L with
  | nil => simp
  | cons e L ih =>
      intro h
      cases hf : f e with
      | none =>
          simp only [List.filterMap_cons, hf] at h
          exact List.mem_cons_of_mem _ (ih h)
      | some v =>
          simp only [List.filterMap_cons, hf, Option.map_some', List.map_cons,
            List.mem_cons] at h
          rcases h with h | h
          · simp [h]
          · exact List.mem_cons_of_mem _ (ih h)

theorem mapGet_entries {α : Type} (f : VisitEntry → Option α) :
    ∀ (L : List VisitEntry), ((L.map VisitEntry.path).Nodup) →
      ∀ (e : VisitEntry), e ∈ L →
        mapGet (L.filterMap (fun e => (f e).map (fun v => (e.path, v)))) e.path = f e := by
  intro L
  induction L with
  | nil => simp
  | cons e₀ L ih =>
      intro hnd e he
      have hnd' := hnd
      simp only [List.map_cons, List.nodup_cons] at hnd'
      rcases hnd' with ⟨h₀, hndL⟩
      rcases List.mem_cons.mp he with rfl | he
      · cases hf : f e <;>
          simp only [List.filterMap_cons, hf, Option.map_none', Option.map_some']
        · refine mapGet_eq_none_of_not_mem_keys _ _ (fun hk => h₀ ?_)
          exact entries_keys_sub f L e.path hk
        · rw [mapGet_cons, if_pos rfl]
      · have hne : e₀.path ≠ e.path := by
          intro hk
          exact h₀ (hk ▸ List.mem_map.mpr ⟨e, he, rfl⟩)
        cases hf : f e₀ <;>
          simp only [List.filterMap_cons, hf, Option.map_none', Option.map_some']
        · exact ih hndL e he
        · rw [mapGet_cons, if_neg hne]
          exact ih hndL e he

/-- Lookup lemma for an index built by one `visit` pass that records, per
visited node, at most one entry keyed by the node: the final lookup at a
valid position `p` returns the value recorded for `p`, falling back to the
pre-existing map. -/
theorem mapGet_visitFold {α : Type} (f : VisitEntry → Option α) (t : XNode)
    (init : List (NPath × α)) {p : NPath} {n : XNode} (hn : nodeAt t p = some n) :
    mapGet ((preorder t [] []).foldl (consEntryStep f) init) p
      = ((f ⟨p, n, ancChain t [] p ++ []⟩).orElse (fun _ => mapGet init p)) := by
  rw [foldl_consEntryStep, mapGet_append, ← List.filterMap_reverse]
  have hmem : (⟨p, n, ancChain t [] p ++ []⟩ : VisitEntry) ∈ (preorder t [] []).reverse := by
    rw [List.mem_reverse]
    simpa using preorder_complete t [] [] p n hn
  have hnd : ((preorder t [] []).reverse.map VisitEntry.path).Nodup := by
    rw [List.map_reverse, List.nodup_reverse]
    exact preorder_path_nodup t [] []
  have := mapGet_entries f (preorder t [] []).reverse hnd _ hmem
  rw [this]

theorem ancChain_head (t : XNode) :
    ∀ (q : NPath) (pAbs : NPath), q ≠ [] → ∀ n, nodeAt t q = some n →
      ∃ m, (ancChain t pAbs q).head? = some (pAbs ++ q.dropLast, m) ∧
        nodeAt t q.dropLast = some m := by
  induction t using XNode.rec
    (motive_2 := fun cs => ∀ c ∈ cs, ∀ (q pAbs : NPath), q ≠ [] → ∀ n,
      nodeAt c q = some n → ∃ m, (ancChain c pAbs q).head? = some (pAbs ++ q.dropLast, m) ∧
        nodeAt c q.dropLast = some m) with
  | root cs ihcs =>
      intro q pAbs hq n hn
      cases q with
      | nil => exact absurd rfl hq
      | cons i q =>
          simp only [nodeAt_cons, ancChain_cons] at hn ⊢
          rcases hcs : (XNode.children (XNode.root cs))[i]? with _ | c
          · rw [hcs] at hn; exact absurd hn (by simp)
          · rw [hcs] at hn
            cases q with
            | nil =>
                refine ⟨XNode.root cs, ?_, by simp⟩
                simp
            | cons j q =>
                have hc : c ∈ XNode.children (XNode.root cs) := mem_of_getElem_some hcs
                rcases ihcs c hc (j :: q) (pAbs ++ [i]) (by simp) n hn with ⟨m, hm, hm'⟩
                refine ⟨m, ?_, ?_⟩
                · rw [List.head?_append, hm]
                  simp [List.dropLast_cons_of_ne_nil]
                · simp only [List.dropLast_cons_of_ne_nil (List.cons_ne_nil j q),
                    nodeAt_cons, hcs]
                  exact hm'
  | element nm at_ cs ihcs =>
      intro q pAbs hq n hn
      cases q with
      | nil => exact absurd rfl hq
      | cons i q =>
          simp only [nodeAt_cons, ancChain_cons] at hn ⊢
          rcases hcs : (XNode.children (XNode.element nm at_ cs))[i]? with _ | c
          · rw [hcs] at hn; exact absurd hn (by simp)
          · rw [hcs] at hn
            cases q with
            | nil =>
                refine ⟨XNode.element nm at_ cs, ?_, by simp⟩
                simp
            | cons j q =>
                have hc : c ∈ XNode.children (XNode.element nm at_ cs) :=
                  mem_of_getElem_some hcs
                rcases ihcs c hc (j :: q) (pAbs ++ [i]) (by simp) n hn with ⟨m, hm, hm'⟩
                refine ⟨m, ?_, ?_⟩
                · rw [List.head?_append, hm]
                  simp [List.dropLast_cons_of_ne_nil]
                · simp only [List.dropLast_cons_of_ne_nil (List.cons_ne_nil j q),
                    nodeAt_cons, hcs]
                  exact hm'
  | text v =>
      intro q pAbs hq n hn
      cases q with
      | nil => exact absurd rfl hq
      | cons i q =>
          simp only [nodeAt_cons] at hn
          simp only [XNode.children, List.getElem?_nil] at hn
          exact absurd hn (by simp)
  | nil => simp_all
  | cons c cs ihc ihcs =>
      rename_i d hd q pAbs hq n hn
      rcases List.mem_cons.mp hd with rfl | hd
      · exact ihc q pAbs hq n hn
      · exact ihcs d hd q pAbs hq n hn

theorem sinceLastDivision_snoc (divTags : List String) (pre : List XNode) (n : XNode) :
    sinceLastDivision divTags (pre ++ [n]) =
      if isDivisionTag divTags n then [n]
      else sinceLastDivision divTags pre ++ [n] := by
  unfold sinceLastDivision
  rw [List.reverse_append]
  simp only [List.reverse_cons, List.reverse_nil, List.nil_append, afterLastDivAux]
  by_cases h : isDivisionTag divTags n
  · simp [h]
  · simp [h]

theorem countSince_snoc (divTags blockTags : List String) (pre : List XNode) (n : XNode) :
    ((sinceLastDivision divTags (pre ++ [n])).filter (isNumberedBlockTag blockTags)).length
      = (if isDivisionTag divTags n then 0
          else ((sinceLastDivision divTags pre).filter (isNumberedBlockTag blockTags)).length)
        + (if isNumberedBlockTag blockTags n then 1 else 0) := by
  rw [sinceLastDivision_snoc]
  by_cases hd : isDivisionTag divTags n <;>
    by_cases hb : isNumberedBlockTag blockTags n <;>
    simp [hd, hb, List.filter_append]

theorem blockFold_spec (divTags blockTags : List String) :
    ∀ (L : List VisitEntry) (pre : List XNode) (acc : List (NPath × Nat)),
      (L.foldl
        (fun acc e =>
          let number := if isDivisionTag divTags e.node then 0 else acc.2
          if isNumberedBlockTag blockTags e.node then ((e.path, number) :: acc.1, number + 1)
          else (acc.1, number))
        (acc, ((sinceLastDivision divTags pre).filter (isNumberedBlockTag blockTags)).length)).1
      = (specBlockEntries divTags blockTags L pre).reverse ++ acc := by
  intro L
  induction L with
  | nil => simp [specBlockEntries]
  | cons e L ih =>
      intro pre acc
      have hcnt := countSince_snoc divTags blockTags pre e.node
      simp only [List.foldl_cons]
      by_cases hd : isDivisionTag divTags e.node
      · by_cases hb : isNumberedBlockTag blockTags e.node
        · have h1 : (1 : Nat) = ((sinceLastDivision divTags (pre ++ [e.node])).filter
              (isNumberedBlockTag blockTags)).length := by
            rw [hcnt]; simp [hd, hb]
          have h2 := ih (pre ++ [e.node]) ((e.path, 0) :: acc)
          rw [← h1] at h2
          simp only [hd, hb, Bool.false_eq_true, Bool.true_eq_false, ite_true, ite_false, if_true, if_false] at h2 ⊢
          rw [h2, specBlockEntries]
          simp [specBlockNumber, hd, hb]
        · have h1 : (0 : Nat) = ((sinceLastDivision divTags (pre ++ [e.node])).filter
              (isNumberedBlockTag blockTags)).length := by
            rw [hcnt]; simp [hd, hb]
          have h2 := ih (pre ++ [e.node]) acc
          rw [← h1] at h2
          simp only [hd, hb, Bool.false_eq_true, Bool.true_eq_false, ite_true, ite_false, if_true, if_false] at h2 ⊢
          rw [h2, specBlockEntries]
          simp [hb]
      · by_cases hb : isNumberedBlockTag blockTags e.node
        · have h1 : ((sinceLastDivision divTags pre).filter
              (isNumberedBlockTag blockTags)).length + 1
              = ((sinceLastDivision divTags (pre ++ [e.node])).filter
                  (isNumberedBlockTag blockTags)).length := by
            rw [hcnt]; simp [hd, hb]
          have h2 := ih (pre ++ [e.node]) ((e.path,
            ((sinceLastDivision divTags pre).filter (isNumberedBlockTag blockTags)).length) :: acc)
          rw [← h1] at h2
          simp only [hd, hb, Bool.false_eq_true, Bool.true_eq_false, ite_true, ite_false, if_true, if_false] at h2 ⊢
          rw [h2, specBlockEntries]
          simp [specBlockNumber, hd, hb]
        · have h1 : ((sinceLastDivision divTags pre).filter
              (isNumberedBlockTag blockTags)).length
              = ((sinceLastDivision divTags (pre ++ [e.node])).filter
                  (isNumberedBlockTag blockTags)).length := by
            rw [hcnt]; simp [hd, hb]
          have h2 := ih (pre ++ [e.node]) acc
          rw [← h1] at h2
          simp only [hd, hb, Bool.false_eq_true, Bool.true_eq_false, ite_true, ite_false, if_true, if_false] at h2 ⊢
          rw [h2, specBlockEntries]
          simp [hb]

theorem digitCharOf_val {d : Nat} (hd : d < 10) : (digitCharOf d).toNat - 48 = d := by
  interval_cases d <;> rfl

theorem natRepr_leftInv :
    Function.LeftInverse
      (fun s : String => Nat.ofDigits 10 ((s.data.map (fun c => c.toNat - 48)).reverse))
      natRepr := by
  intro n
  by_cases h : n = 0
  · subst h; rfl
  · show Nat.ofDigits 10 (((natRepr n).data.map (fun c => c.toNat - 48)).reverse) = n
    unfold natRepr
    rw [if_neg h]
    show Nat.ofDigits 10
      ((((Nat.digits 10 n).reverse.map digitCharOf).map (fun c => c.toNat - 48)).reverse) = n
    rw [List.map_map]
    have hcong : List.map ((fun c : Char => c.toNat - 48) ∘ digitCharOf)
        (Nat.digits 10 n).reverse = List.map id (Nat.digits 10 n).reverse :=
      List.map_congr_left (fun d hd => by
        have hd10 : d < 10 := Nat.digits_lt_base (by norm_num) (List.mem_reverse.mp hd)
        simpa using digitCharOf_val hd10)
    rw [hcong, List.map_id, List.reverse_reverse, Nat.ofDigits_digits]

theorem natRepr_injective : Function.Injective natRepr :=
  Function.LeftInverse.injective natRepr_leftInv

theorem suffix_cand_injective (base : String) :
    Function.Injective (fun v : Nat => base ++ "-" ++ natRepr v) := by
  intro a b h
  apply natRepr_injective
  have hd := congrArg String.data h
  simp only [String.data_append] at hd
  have hd2 := List.append_cancel_left hd
  exact String.ext hd2

theorem occKeys_occBump (occ : OccMap) (base : String) :
    occKeys (occBump occ base) = occKeys occ := by
  unfold occKeys occBump
  rw [List.map_map]
  apply List.map_congr_left
  intro p _
  by_cases h : p.1 = base <;> simp [h]

theorem mapGet_occBump_self (occ : OccMap) (base : String) :
    mapGet (occBump occ base) base = (mapGet occ base).map (fun v => v + 1) := by
  induction occ with
  | nil => rfl
  | cons p occ ih =>
      by_cases h : p.1 = base
      · simp only [occBump, List.map_cons, if_pos h]
        rw [show ((p.1, p.2 + 1) : String × Nat) = (p.1, p.2 + 1) from rfl, mapGet_cons,
          if_pos h, show (p : String × Nat) = (p.1, p.2) from rfl, mapGet_cons, if_pos h]
        rfl
      · simp only [occBump, List.map_cons, if_neg h]
        rw [show (p : String × Nat) = (p.1, p.2) from rfl, mapGet_cons, if_neg h,
          mapGet_cons, if_neg h]
        simpa [occBump] using ih

theorem occKeys_slugLoop (base : String) :
    ∀ (fuel : Nat) (occ : OccMap) (result : String),
      occKeys (slugLoop base fuel occ result).1 = occKeys occ := by
  intro fuel
  induction fuel with
  | zero => intro occ result; rfl
  | succ fuel ih =>
      intro occ result
      unfold slugLoop
      by_cases h : hasOwn occ result
      · simp only [h, if_true]
        rw [ih, occKeys_occBump]
      · simp [h]

theorem mapGet_isSome_of_mem_keys {κ α : Type} [DecidableEq κ] (m : List (κ × α)) (k : κ)
    (h : k ∈ m.map (fun p => p.1)) : (mapGet m k).isSome := by
  induction m with
  | nil => simp at h
  | cons p m ih =>
      simp only [List.map_cons, List.mem_cons] at h
      rw [show (p : κ × α) = (p.1, p.2) from rfl, mapGet_cons]
      rcases h with h | h
      · rw [if_pos h.symm]; rfl
      · by_cases hk : p.1 = k
        · rw [if_pos hk]; rfl
        · rw [if_neg hk]; exact ih h

theorem slugLoop_result_fresh (base : String) :
    ∀ (fuel : Nat) (occ : OccMap) (v : Nat) (result : String),
      mapGet occ base = some v →
      ((∃ j, j < fuel ∧ (base ++ "-" ++ natRepr (v + j + 1)) ∉ occKeys occ) ∨
        result ∉ occKeys occ) →
      (slugLoop base fuel occ result).2 ∉ occKeys occ := by
  intro fuel
  induction fuel with
  | zero =>
      intro occ v result hv hyp
      rcases hyp with ⟨j, hj, _⟩ | h
      · omega
      · exact h
  | succ fuel ih =>
      intro occ v result hv hyp
      unfold slugLoop
      by_cases h : hasOwn occ result
      · simp only [h, if_true]
        have hres : result ∈ occKeys occ := by
          have := of_decide_eq_true h
          exact this
        rcases hyp with ⟨j, hj, hfresh⟩ | h'
        · have hv' : mapGet (occBump occ base) base = some (v + 1) := by
            rw [mapGet_occBump_self, hv]; rfl
          have hkeys : occKeys (occBump occ base) = occKeys occ := occKeys_occBump occ base
          have hres' : (mapGet (occBump occ base) base).getD 0 = v + 1 := by
            rw [hv']; rfl
          have hmain := ih (occBump occ base) (v + 1)
            (base ++ "-" ++ natRepr ((mapGet (occBump occ base) base).getD 0)) hv' ?_
          · rw [hkeys] at hmain
            exact hmain
          · cases j with
            | zero =>
                right
                rw [hres', hkeys]
                simpa using hfresh
            | succ j =>
                left
                refine ⟨j, by omega, ?_⟩
                rw [hkeys]
                have : v + 1 + j + 1 = v + (j + 1) + 1 := by omega
                rw [this]
                exact hfresh
        · exact absurd hres h'
      · simp only [h, if_false]
        intro hmem
        exact h (decide_eq_true hmem)

theorem exists_fresh_suffix (base : String) (occ : OccMap) (v : Nat) :
    ∃ j, j < occ.length + 1 ∧ (base ++ "-" ++ natRepr (v + j + 1)) ∉ occKeys occ := by
  by_contra hcon
  push_neg at hcon
  have hnd : ((List.range (occ.length + 1)).map
      (fun j => base ++ "-" ++ natRepr (v + j + 1))).Nodup := by
    refine List.Nodup.map ?_ (List.nodup_range _)
    intro a b hab
    have := suffix_cand_injective base hab
    omega
  have hsub : ((List.range (occ.length + 1)).map
      (fun j => base ++ "-" ++ natRepr (v + j + 1))).toFinset ⊆ (occKeys occ).toFinset := by
    intro x hx
    rw [List.mem_toFinset] at hx ⊢
    rcases List.mem_map.mp hx with ⟨j, hj, rfl⟩
    exact hcon j (List.mem_range.mp hj)
  have h1 := List.toFinset_card_of_nodup hnd
  have h2 := Finset.card_le_card hsub
  have h3 := List.toFinset_card_le (l := occKeys occ)
  have h4 : (occKeys occ).length = occ.length := List.length_map _ _
  rw [h1] at h2
  simp only [List.length_map, List.length_range] at h2
  omega

theorem sluggerSlug_fresh (occ : OccMap) (value : String) :
    (sluggerSlug occ value).2 ∉ occKeys occ := by
  by_cases h : value ∈ occKeys occ
  · have hsome : (mapGet occ value).isSome := mapGet_isSome_of_mem_keys occ value h
    rcases Option.isSome_iff_exists.mp hsome with ⟨v, hv⟩
    exact slugLoop_result_fresh value (occ.length + 1) occ v value hv
      (Or.inl (exists_fresh_suffix value occ v))
  · have : (sluggerSlug occ value).2 = value := by
      unfold sluggerSlug slugLoop
      have : hasOwn occ value = false := by
        simp [hasOwn, h]
      simp [this]
    rw [this]
    exact h

theorem occKeys_sluggerSlug (occ : OccMap) (value : String) :
    occKeys (sluggerSlug occ value).1 = (sluggerSlug occ value).2 :: occKeys occ := by
  show occKeys ((((slugLoop value (occ.length + 1) occ value).2, 0) ::
      (slugLoop value (occ.length + 1) occ value).1)) = _
  unfold occKeys
  rw [List.map_cons]
  have := occKeys_slugLoop value (occ.length + 1) occ value
  unfold occKeys at this
  rw [this]
  rfl

theorem occKeys_sluggerSlug_mono (occ : OccMap) (value : String) :
    ∀ k ∈ occKeys occ, k ∈ occKeys (sluggerSlug occ value).1 := by
  rw [occKeys_sluggerSlug]
  exact fun k h => List.mem_cons_of_mem _ h

theorem mem_keys_sluggerSlug_self (occ : OccMap) (value : String) :
    value ∈ occKeys (sluggerSlug occ value).1 := by
  rw [occKeys_sluggerSlug]
  by_cases h : value ∈ occKeys occ
  · exact List.mem_cons_of_mem _ h
  · have hval : (sluggerSlug occ value).2 = value := by
      unfold sluggerSlug slugLoop
      have : hasOwn occ value = false := by simp [hasOwn, h]
      simp [this]
    rw [hval]
    exact List.mem_cons_self _ _

theorem drainCache_keys :
    ∀ (cache : List String) (occ : OccMap),
      (∀ k ∈ occKeys occ, k ∈ occKeys (drainCache occ cache)) ∧
      (∀ id ∈ cache, id ∈ occKeys (drainCache occ cache)) := by
  intro cache
  induction cache with
  | nil => exact fun occ => ⟨fun k h => h, by simp⟩
  | cons id rest ih =>
      intro occ
      constructor
      · intro k hk
        exact (ih ((sluggerSlug occ id).1)).1 k (occKeys_sluggerSlug_mono occ id k hk)
      · intro x hx
        rcases List.mem_cons.mp hx with rfl | hx
        · exact (ih ((sluggerSlug occ x).1)).1 x (mem_keys_sluggerSlug_self occ x)
        · exact (ih ((sluggerSlug occ id).1)).2 x hx

theorem declareId_step (st : PretextState) (id : String) :
    (∀ x, covered st x → covered (declareId st id).1 x) ∧ covered (declareId st id).1 id := by
  unfold declareId
  by_cases h : id ∈ st.declaredIdCache ∨ (mapGet st.occurrences id).getD 0 > 0
  · simp only [h, if_true]
    refine ⟨fun x hx => hx, ?_⟩
    rcases h with h | h
    · exact Or.inr h
    · refine Or.inl ?_
      by_contra hk
      rw [mapGet_eq_none_of_not_mem_keys _ _ hk] at h
      simp at h
  · simp only [h, if_false]
    constructor
    · intro x hx
      unfold covered at hx ⊢
      rcases hx with hx | hx
      · exact Or.inl hx
      · exact Or.inr (by simp [hx])
    · exact Or.inr (by simp)

theorem sluggerSlug_step (occ1 : OccMap) (base : String) (P : String → Prop)
    (hP : ∀ x, P x → x ∈ occKeys occ1) :
    (∀ x, P x → x ∈ occKeys (sluggerSlug occ1 base).1) ∧
    ¬ P (sluggerSlug occ1 base).2 ∧
    (sluggerSlug occ1 base).2 ∈ occKeys (sluggerSlug occ1 base).1 :=
  ⟨fun x hx => occKeys_sluggerSlug_mono _ _ x (hP x hx),
    fun hcov => sluggerSlug_fresh _ _ (hP _ hcov),
    by rw [occKeys_sluggerSlug]; exact List.mem_cons_self _ _⟩

theorem getUniqueId_step (st : PretextState) (p : Option String) :
    (∀ x, covered st x → x ∈ occKeys (getUniqueId st p).1.occurrences) ∧
    ¬ covered st (getUniqueId st p).2 ∧
    covered (getUniqueId st p).1 (getUniqueId st p).2 := by
  by_cases hc : st.declaredIdCache.isEmpty
  · have hcache : st.declaredIdCache = [] := by
      cases hl : st.declaredIdCache
      · rfl
      · rw [hl] at hc; simp at hc
    have hP : ∀ x, covered st x → x ∈ occKeys st.occurrences := by
      intro x hx
      unfold covered at hx
      rcases hx with hx | hx
      · exact hx
      · rw [hcache] at hx; simp at hx
    simp only [getUniqueId, hc, if_true]
    exact ⟨fun x hx => (sluggerSlug_step _ _ _ hP).1 x hx,
      (sluggerSlug_step _ _ _ hP).2.1,
      Or.inl (sluggerSlug_step _ _ _ hP).2.2⟩
  · have hP : ∀ x, covered st x →
        x ∈ occKeys (drainCache st.occurrences st.declaredIdCache) := by
      intro x hx
      unfold covered at hx
      rcases hx with hx | hx
      · exact (drainCache_keys st.declaredIdCache st.occurrences).1 x hx
      · exact (drainCache_keys st.declaredIdCache st.occurrences).2 x hx
    simp only [getUniqueId, hc, if_false]
    exact ⟨fun x hx => (sluggerSlug_step _ _ _ hP).1 x hx,
      (sluggerSlug_step _ _ _ hP).2.1,
      Or.inl (sluggerSlug_step _ _ _ hP).2.2⟩

theorem runOps_spec :
    ∀ (ops : List AllocOp) (st : PretextState),
      genFresh (runOps st ops).2 ∧
      (∀ g, AllocEvent.generated g ∈ (runOps st ops).2 → ¬ covered st g) := by
  intro ops
  induction ops with
  | nil =>
      intro st
      exact ⟨trivial, by simp [runOps]⟩
  | cons op rest ih =>
      intro st
      cases op with
      | declare id =>
          have hstep := declareId_step st id
          have hmain := ih (declareId st id).1
          simp only [runOps]
          constructor
          · refine ⟨?_, hmain.1⟩
            intro g hg heq
            have : covered (declareId st id).1 g := heq ▸ hstep.2
            exact hmain.2 g hg this
          · intro g hg
            rcases List.mem_cons.mp hg with heq | hg
            · exact absurd heq (by simp)
            · intro hcov
              exact hmain.2 g hg (hstep.1 g hcov)
      | getUnique p =>
          have hstep := getUniqueId_step st p
          have hmain := ih (getUniqueId st p).1
          simp only [runOps]
          constructor
          · refine ⟨?_, hmain.1⟩
            intro g hg heq
            have : covered (getUniqueId st p).1 g := by
              rw [show g = (getUniqueId st p).2 from heq]
              exact hstep.2.2
            exact hmain.2 g hg this
          · intro g hg
            rcases List.mem_cons.mp hg with heq | hg
            · have : g = (getUniqueId st p).2 := by
                simpa using heq
              rw [this]
              exact hstep.2.1
            · intro hcov
              exact hmain.2 g hg (Or.inl (hstep.1 g hcov))

/-- C1: over every sequence of `declareId`/`getUniqueId` calls on a fresh
`PretextState`, every identifier returned by `getUniqueId` is distinct
from every identifier returned by an earlier `getUniqueId` call and from
every identifier passed to an earlier `declareId` call: the event trace
satisfies `genFresh`, and in particular draining the pending-declaration
cache before generating keeps `getUniqueId` from reproducing a declared
id even when the declaration followed earlier `getUniqueId` calls. -/
theorem claim_C1_allocator_uniqueness (ops : List AllocOp) :
    genFresh (runOps initialState ops).2 :=
  (runOps_spec ops initialState).1

/-- C2 (code bug): declaring an id that a single prior `getUniqueId` call
produced returns `false`, not `true`: the slugger records a fresh slug
with occurrence count 0, and `declareId` tests `occurrences[id] > 0`.
Declaring the same id twice does return `true` the second time. -/
theorem claim_C2_declare_after_generate :
    (getUniqueId initialState none).2 = "auto-generated-id" ∧
    (declareId (getUniqueId initialState none).1 "auto-generated-id").2 = false ∧
    (declareId (declareId initialState "x").1 "x").2 = true := by
  refine ⟨?_, ?_, ?_⟩ <;> rfl

theorem generateBlockToNumberMap_spec (divTags blockTags : List String) (root : XNode) :
    generateBlockToNumberMap divTags blockTags root []
      = (specBlockEntries divTags blockTags (elementsOf root) []).reverse := by
  have h := blockFold_spec divTags blockTags (elementsOf root) [] []
  simp only [sinceLastDivision, List.reverse_nil, afterLastDivAux, List.filter_nil,
    List.length_nil, List.append_nil] at h
  exact h

/-- C3: the block-number pass assigns each numbered-block node the
0-based count of numbered blocks visited in pre-order since the most
recent division node, resetting at every division; on the scenario tree
the outer definition gets 0 and the theorem 1, and the inner definition
gets 0 again when `section` is division-classified but continues with 2
when it is not. -/
theorem claim_C3_block_numbers :
    (∀ (divTags blockTags : List String) (root : XNode),
      generateBlockToNumberMap divTags blockTags root []
        = (specBlockEntries divTags blockTags (elementsOf root) []).reverse) ∧
    mapGet (generateBlockToNumberMap ["chapter", "section"] ["definition", "theorem"]
      scenarioTree []) [0, 0] = some 0 ∧
    mapGet (generateBlockToNumberMap ["chapter", "section"] ["definition", "theorem"]
      scenarioTree []) [0, 1] = some 1 ∧
    mapGet (generateBlockToNumberMap ["chapter", "section"] ["definition", "theorem"]
      scenarioTree []) [0, 2, 0] = some 0 ∧
    mapGet (generateBlockToNumberMap ["chapter"] ["definition", "theorem"]
      scenarioTree []) [0, 0] = some 0 ∧
    mapGet (generateBlockToNumberMap ["chapter"] ["definition", "theorem"]
      scenarioTree []) [0, 1] = some 1 ∧
    mapGet (generateBlockToNumberMap ["chapter"] ["definition", "theorem"]
      scenarioTree []) [0, 2, 0] = some 2 :=
  ⟨generateBlockToNumberMap_spec, rfl, rfl, rfl, rfl, rfl, rfl⟩

theorem generateParentMap_lookup (root : XNode) (init : List (NPath × XNode))
    {p : NPath} {n : XNode} (hn : nodeAt root p = some n) :
    mapGet (generateParentMap root init) p
      = (((ancChain root [] p ++ []).head?.map (fun qm : NPath × XNode => qm.2)).orElse
          (fun _ => mapGet init p)) := by
  have h := mapGet_visitFold (fun e => e.parents.head?.map (fun qm => qm.2)) root init hn
  simpa using h

/-- C4: after `setRoot` on a fresh state, the parent map sends every
non-root position of the installed tree to the node one level up, and the
root position has no entry. -/
theorem claim_C4_parent_map (divTags blockTags : List String) (root : XNode) :
    (∀ p n, nodeAt root p = some n → p ≠ [] →
      mapGet (setRoot divTags blockTags initialState root).parentMap p
        = nodeAt root p.dropLast) ∧
    mapGet (setRoot divTags blockTags initialState root).parentMap [] = none := by
  constructor
  · intro p n hn hp
    show mapGet (generateParentMap root initialState.parentMap) p = _
    rw [generateParentMap_lookup root _ hn]
    rcases ancChain_head root p [] hp n hn with ⟨m, hm, hm'⟩
    rw [List.append_nil, hm]
    simp only [Option.map_some', Option.orElse]
    exact hm'.symm
  · show mapGet (generateParentMap root initialState.parentMap) [] = _
    rw [generateParentMap_lookup root _ (nodeAt_nil root)]
    simp [initialState]

/-- Witness for C4 at a concrete tree: the element at position `[0]` has
the root as its parent. -/
theorem claim_C4_parent_map_witness :
    mapGet (setRoot ["chapter"] ["definition"] initialState
        (XNode.root [XNode.element "a" [] []])).parentMap [0]
      = some (XNode.root [XNode.element "a" [] []]) := by
  have h := (claim_C4_parent_map ["chapter"] ["definition"]
    (XNode.root [XNode.element "a" [] []])).1 [0] (XNode.element "a" [] []) rfl
    (by simp)
  simpa using h

/-- C5 counterexample: with `r1 = root[a, b]` installed and then
`r2 = root[c]` installed, the parent map still holds the entry keyed by
`r1`'s node `b` (position `[1]`, not a position of `r2` at all), so the
indices are not fully replaced. -/
theorem claim_C5_counterexample :
    nodeAt (XNode.root [XNode.element "c" [] []]) [1] = none ∧
    mapGet (setRoot ["chapter"] ["definition"]
        (setRoot ["chapter"] ["definition"] initialState
          (XNode.root [XNode.element "a" [] [], XNode.element "b" [] []]))
        (XNode.root [XNode.element "c" [] []])).parentMap [1]
      = some (XNode.root [XNode.element "a" [] [], XNode.element "b" [] []]) :=
  ⟨rfl, rfl⟩

/-- C5 (amended): all indices are empty at construction, but a repeated
`setRoot` does not fully replace the weak-map indices: the parent-map
pass only prepends entries for the new tree, so entries keyed by nodes of
the previously installed tree persist. -/
theorem claim_C5_amended (divTags blockTags : List String) (st : PretextState)
    (root : XNode) :
    initialState.parentMap = [] ∧ initialState.xastNodeToTocDivisionId = [] ∧
    initialState.xastBlockToNumber = [] ∧ initialState.tocInfoMap = [] ∧
    initialState.xrefableMap = [] ∧
    ∃ added, (setRoot divTags blockTags st root).parentMap = added ++ st.parentMap := by
  refine ⟨rfl, rfl, rfl, rfl, rfl, ?_⟩
  show ∃ added, generateParentMap root st.parentMap = added ++ st.parentMap
  unfold generateParentMap
  rw [foldl_consEntryStep]
  exact ⟨_, rfl⟩

theorem divisionIdMap_lookup (root : XNode) (divisions : List NPath) {p : NPath} {n : XNode}
    (hn : nodeAt root p = some n) :
    mapGet (generateNodeToDivisionIdMap root divisions []) p
      = (nearestDivision root divisions p).map (fun qm => xmlIdOf qm.2) := by
  have h := mapGet_visitFold (divIdOf divisions) root [] hn
  show mapGet ((preorder root [] []).foldl (consEntryStep (divIdOf divisions)) []) p = _
  rw [h]
  unfold divIdOf nearestDivision
  rw [hn]
  simp only [List.append_nil, mapGet_nil]
  by_cases hc : XNode.isElement n && decide (p ∈ divisions)
  · simp [hc, Option.orElse]
  · simp only [hc, Bool.false_eq_true, if_false, Option.map_map]
    cases hfind : (ancChain root [] p).find?
        (fun qm => XNode.isElement qm.2 && decide (qm.1 ∈ divisions)) <;>
      simp [Option.orElse]

/-- C6: the division-membership pass maps a marked division node to its
own `xml:id` (empty when absent) without ancestor search, any other node
to the `xml:id` of the first marked division on its ancestor chain
(nearest first), and leaves a node with no enclosing marked division
unmapped. -/
theorem claim_C6_division_membership (root : XNode) (divisions : List NPath)
    (p : NPath) (n : XNode) (hn : nodeAt root p = some n) :
    mapGet (generateNodeToDivisionIdMap root divisions []) p
      = (nearestDivision root divisions p).map (fun qm => xmlIdOf qm.2) :=
  divisionIdMap_lookup root divisions hn

/-- Witness for C6: in `root > chapter#c1 > definition` with the chapter
marked as a division, the definition maps to `"c1"`. -/
theorem claim_C6_division_membership_witness :
    mapGet (generateNodeToDivisionIdMap
        (XNode.root [XNode.element "chapter" [("xml:id", "c1")]
          [XNode.element "definition" [] []]]) [[0]] []) [0, 0]
      = (nearestDivision (XNode.root [XNode.element "chapter" [("xml:id", "c1")]
          [XNode.element "definition" [] []]]) [[0]] [0, 0]).map
            (fun qm => xmlIdOf qm.2) ∧
    (nearestDivision (XNode.root [XNode.element "chapter" [("xml:id", "c1")]
        [XNode.element "definition" [] []]]) [[0]] [0, 0]).map
          (fun qm => xmlIdOf qm.2) = some "c1" :=
  ⟨claim_C6_division_membership
      (XNode.root [XNode.element "chapter" [("xml:id", "c1")]
        [XNode.element "definition" [] []]]) [[0]] [0, 0]
      (XNode.element "definition" [] []) rfl,
    rfl⟩

/-- C7: `getTocItemInfo` returns a non-empty result exactly when the
node's nearest enclosing marked division (or the node itself, if a marked
division) has an entry in the ToC info map, provided the ToC map has no
entry under the empty (JS-falsy) identifier. -/
theorem claim_C7_toc_item_iff (root : XNode) (divisions : List NPath) (st : PretextState)
    (p : NPath) (n : XNode) (hn : nodeAt root p = some n)
    (hdiv : st.xastNodeToTocDivisionId = generateNodeToDivisionIdMap root divisions [])
    (hempty : mapGet st.tocInfoMap "" = none) :
    (getTocItemInfo st p).isSome ↔
      ∃ q m, nearestDivision root divisions p = some (q, m) ∧
        (mapGet st.tocInfoMap (xmlIdOf m)).isSome := by
  unfold getTocItemInfo
  rw [hdiv, divisionIdMap_lookup root divisions hn]
  cases hnd : nearestDivision root divisions p with
  | none => simp
  | some qm =>
      obtain ⟨q, m⟩ := qm
      simp only [Option.map_some']
      by_cases hid : xmlIdOf m = ""
      · simp [hid, hempty]
      · simp [hid]
        constructor
        · intro hsome
          exact ⟨q, m, ⟨rfl, rfl⟩, hsome⟩
        · rintro ⟨q₁, m₁, ⟨rfl, rfl⟩, hsome⟩
          exact hsome

/-- Witness for C7 at a concrete state: the definition under
`chapter#c1` has ToC info exactly when `"c1"` is in the ToC map. -/
theorem claim_C7_toc_item_iff_witness :
    (getTocItemInfo
        { initialState with
            xastNodeToTocDivisionId :=
              generateNodeToDivisionIdMap
                (XNode.root [XNode.element "chapter" [("xml:id", "c1")]
                  [XNode.element "definition" [] []]]) [[0]] [],
            tocInfoMap := [("c1",
              { numbering := [1], level := 0,
                item := { id := "c1", division := "chapter", title := [] } })] }
        [0, 0]).isSome ↔
      ∃ q m, nearestDivision
          (XNode.root [XNode.element "chapter" [("xml:id", "c1")]
            [XNode.element "definition" [] []]]) [[0]] [0, 0] = some (q, m) ∧
        (mapGet [("c1",
            ({ numbering := [1], level := 0,
               item := { id := "c1", division := "chapter", title := [] } } : TocEntry))]
          (xmlIdOf m)).isSome :=
  claim_C7_toc_item_iff
    (XNode.root [XNode.element "chapter" [("xml:id", "c1")]
      [XNode.element "definition" [] []]]) [[0]]
    { initialState with
        xastNodeToTocDivisionId :=
          generateNodeToDivisionIdMap
            (XNode.root [XNode.element "chapter" [("xml:id", "c1")]
              [XNode.element "definition" [] []]]) [[0]] [],
        tocInfoMap := [("c1",
          { numbering := [1], level := 0,
            item := { id := "c1", division := "chapter", title := [] } })] }
    [0, 0] (XNode.element "definition" [] []) rfl rfl rfl

/-- C8: `getRefTargetInfo` resolves by looking the node's `ref` attribute
up in the xrefable map, and an unresolved target (missing attribute or
missing key) yields an absent result, provided the xrefable map has no
entry under the empty (JS-default) identifier. -/
theorem claim_C8_ref_target (st : PretextState) (n : XNode)
    (hempty : mapGet st.xrefableMap "" = none) :
    (∀ r, attrOf n "ref" = some r → getRefTargetInfo st n = mapGet st.xrefableMap r) ∧
    (attrOf n "ref" = none → getRefTargetInfo st n = none) ∧
    (∀ r, attrOf n "ref" = some r → mapGet st.xrefableMap r = none →
      getRefTargetInfo st n = none) := by
  unfold getRefTargetInfo
  refine ⟨?_, ?_, ?_⟩
  · intro r hr
    rw [hr]
    rfl
  · intro hr
    rw [hr]
    exact hempty
  · intro r hr hnone
    rw [hr]
    exact hnone

/-- Witness for C8: a dangling `ref` yields an absent result. -/
theorem claim_C8_ref_target_witness :
    getRefTargetInfo
        { initialState with xrefableMap := [("c1",
            { node := XNode.text "", tag := "chapter", id := "c1",
              title := [], codenumber := "1" })] }
        (XNode.element "xref" [("ref", "nope")] []) = none :=
  (claim_C8_ref_target
    { initialState with xrefableMap := [("c1",
        { node := XNode.text "", tag := "chapter", id := "c1",
          title := [], codenumber := "1" })] }
    (XNode.element "xref" [("ref", "nope")] []) rfl).2.2 "nope" rfl rfl

/-- C9: when the nearest enclosing marked division of a node carries no
(or an empty) `xml:id`, the division map records `""` for the node, and
`getTocItemInfo`, `getDivisionDisplayName` and `getBlockInfo` all return
an absent result, exactly as for a node with no enclosing division
(assuming the ToC map has no entry under `""`). -/
theorem claim_C9_empty_division_id (root : XNode) (divisions : List NPath)
    (displayNames : List (String × String)) (st : PretextState) (p : NPath) (n : XNode)
    (q : NPath) (m : XNode)
    (hn : nodeAt root p = some n)
    (hdiv : st.xastNodeToTocDivisionId = generateNodeToDivisionIdMap root divisions [])
    (hnear : nearestDivision root divisions p = some (q, m))
    (hid : attrOf m "xml:id" = none ∨ attrOf m "xml:id" = some "")
    (hempty : mapGet st.tocInfoMap "" = none) :
    mapGet st.xastNodeToTocDivisionId p = some "" ∧
    getTocItemInfo st p = none ∧
    getDivisionDisplayName displayNames st p = none ∧
    getBlockInfo displayNames st p n = none := by
  have hxml : xmlIdOf m = "" := by
    unfold xmlIdOf
    rcases hid with h | h <;> rw [h] <;> rfl
  have hmap : mapGet st.xastNodeToTocDivisionId p = some "" := by
    rw [hdiv, divisionIdMap_lookup root divisions hn, hnear]
    simp [hxml]
  have htoc : getTocItemInfo st p = none := by
    unfold getTocItemInfo
    rw [hmap]
    simp
  refine ⟨hmap, htoc, ?_, ?_⟩
  · unfold getDivisionDisplayName
    rw [hmap]
    simp [hempty]
  · simp [getBlockInfo, htoc]

/-- Witness for C9: a chapter without `xml:id`. -/
theorem claim_C9_empty_division_id_witness :
    mapGet ({ initialState with
        xastNodeToTocDivisionId :=
          generateNodeToDivisionIdMap
            (XNode.root [XNode.element "chapter" []
              [XNode.element "definition" [] []]]) [[0]] [] } :
        PretextState).xastNodeToTocDivisionId [0, 0] = some "" ∧
    getTocItemInfo
      { initialState with
          xastNodeToTocDivisionId :=
            generateNodeToDivisionIdMap
              (XNode.root [XNode.element "chapter" []
                [XNode.element "definition" [] []]]) [[0]] [] } [0, 0] = none ∧
    getDivisionDisplayName [("chapter", "Chapter")]
      { initialState with
          xastNodeToTocDivisionId :=
            generateNodeToDivisionIdMap
              (XNode.root [XNode.element "chapter" []
                [XNode.element "definition" [] []]]) [[0]] [] } [0, 0] = none ∧
    getBlockInfo [("chapter", "Chapter")]
      { initialState with
          xastNodeToTocDivisionId :=
            generateNodeToDivisionIdMap
              (XNode.root [XNode.element "chapter" []
                [XNode.element "definition" [] []]]) [[0]] [] } [0, 0]
      (XNode.element "definition" [] []) = none :=
  claim_C9_empty_division_id
    (XNode.root [XNode.element "chapter" [] [XNode.element "definition" [] []]]) [[0]]
    [("chapter", "Chapter")]
    { initialState with
        xastNodeToTocDivisionId :=
          generateNodeToDivisionIdMap
            (XNode.root [XNode.element "chapter" []
              [XNode.element "definition" [] []]]) [[0]] [] }
    [0, 0] (XNode.element "definition" [] [])
    [0] (XNode.element "chapter" [] [XNode.element "definition" [] []])
    rfl rfl rfl (Or.inl rfl) rfl

/-- C10: for a node whose enclosing division resolves to a ToC entry but
which is itself no numbered block, `getBlockInfo` returns a present
record whose `displayName` and `divisionInfo` are populated and whose
`number` is absent. -/
theorem claim_C10_block_info_without_number (displayNames : List (String × String))
    (st : PretextState) (p : NPath) (n : XNode) (info : TocEntry)
    (hnum : mapGet st.xastBlockToNumber p = none)
    (htoc : getTocItemInfo st p = some info) :
    getBlockInfo displayNames st p n
      = some { displayName := jsOr (mapGet displayNames (XNode.name n)) (XNode.name n),
               number := none, divisionInfo := info } := by
  simp [getBlockInfo, htoc, hnum]

/-- Witness for C10 at a concrete state: a paragraph inside `chapter#c1`
gets block info with an absent number. -/
theorem claim_C10_block_info_without_number_witness :
    getBlockInfo [("p", "Paragraph")]
        { initialState with
            xastNodeToTocDivisionId := [([0, 0], "c1")],
            tocInfoMap := [("c1",
              { numbering := [1], level := 0,
                item := { id := "c1", division := "chapter", title := [] } })] }
        [0, 0] (XNode.element "p" [] [])
      = some { displayName := jsOr (mapGet [("p", "Paragraph")] (XNode.name
                  (XNode.element "p" [] []))) (XNode.name (XNode.element "p" [] [])),
               number := none,
               divisionInfo :=
                 { numbering := [1], level := 0,
                   item := { id := "c1", division := "chapter", title := [] } } } :=
  claim_C10_block_info_without_number [("p", "Paragraph")]
    { initialState with
        xastNodeToTocDivisionId := [([0, 0], "c1")],
        tocInfoMap := [("c1",
          { numbering := [1], level := 0,
            item := { id := "c1", division := "chapter", title := [] } })] }
    [0, 0] (XNode.element "p" [] [])
    { numbering := [1], level := 0,
      item := { id := "c1", division := "chapter", title := [] } }
    rfl rfl
